import Mathlib

/-!
Verification development for the engines-range checker (`lib/tasks.ts`).

The development shallowly embeds the range-arithmetic core of the
repository: `sortRangeSet`, `setToRange`, `applyMinVersionToRangeSet`,
`restrictiveRange`, `humanizeRange` and the per-engine aggregation loop
`computeEnginesConstraint`.  The semantic-versioning primitives the code
imports from the external `semver` package (`compare`, `subset`,
`intersects`, `minVersion`, comparator parsing) are not part of the
repository; they are modelled here from the collaborator contract of the
specification (standard semver precedence, interval-union semantics of
comparator sets).  Machine recursion in `restrictiveRange` is embedded
with an explicit fuel parameter; the in-place mutation of the
`ignoredRanges` array is embedded by threading the list through and
returning it.
-/

namespace Nce

/-- Three-way comparison on naturals, the order `semver.compare` uses on
each numeric field. -/
def cmpN (a b : Nat) : Ordering :=
  if a < b then .lt else if a = b then .eq else .gt

theorem cmpN_self (a : Nat) : cmpN a a = .eq := by
  simp [cmpN]

theorem cmpN_eq_iff {a b : Nat} : cmpN a b = .eq ↔ a = b := by
  unfold cmpN
  rcases Nat.lt_trichotomy a b with h | h | h
  · have h2 : a ≠ b := by omega
    simp [h, h2]
  · subst h; simp
  · have h1 : ¬a < b := by omega
    have h2 : a ≠ b := by omega
    simp [h1, h2]

theorem cmpN_lt_iff {a b : Nat} : cmpN a b = .lt ↔ a < b := by
  unfold cmpN
  rcases Nat.lt_trichotomy a b with h | h | h
  · simp [h]
  · subst h; simp
  · have h1 : ¬a < b := by omega
    have h2 : a ≠ b := by omega
    simp [h1, h2]

theorem cmpN_gt_iff {a b : Nat} : cmpN a b = .gt ↔ b < a := by
  unfold cmpN
  rcases Nat.lt_trichotomy a b with h | h | h
  · have h1 : ¬b < a := by omega
    simp [h, h1]
  · subst h; simp
  · have h1 : ¬a < b := by omega
    have h2 : a ≠ b := by omega
    simp [h1, h2, h]

/-- Lexicographic comparison of numeric prerelease identifier lists
(a strict prefix sorts first, as in semver precedence). -/
def cmpList : List Nat → List Nat → Ordering
  | [], [] => .eq
  | [], _ :: _ => .lt
  | _ :: _, [] => .gt
  | a :: as, b :: bs => (cmpN a b).then (cmpList as bs)

/-- Prerelease comparison: a release (empty identifier list) sorts after
every prerelease; two prereleases compare lexicographically. -/
def cmpPre : List Nat → List Nat → Ordering
  | [], [] => .eq
  | [], _ :: _ => .gt
  | _ :: _, [] => .lt
  | a :: as, b :: bs => (cmpN a b).then (cmpList as bs)

theorem cmpList_self (a : List Nat) : cmpList a a = .eq := by
  induction a with
  | nil => rfl
  | cons x xs ih => simp [cmpList, cmpN_self, Ordering.then, ih]

theorem cmpPre_self (a : List Nat) : cmpPre a a = .eq := by
  cases a with
  | nil => rfl
  | cons x xs => simp [cmpPre, cmpN_self, Ordering.then, cmpList_self]

theorem cmpList_eq_iff {a b : List Nat} : cmpList a b = .eq ↔ a = b := by
  induction a generalizing b with
  | nil => cases b <;> simp [cmpList]
  | cons x xs ih =>
    cases b with
    | nil => simp [cmpList]
    | cons y ys =>
      simp only [cmpList, Ordering.then]
      cases h : cmpN x y with
      | lt => simp only [List.cons.injEq]
              constructor
              · intro hc; cases hc
              · rintro ⟨rfl, rfl⟩; rw [cmpN_self] at h; cases h
      | eq => rw [cmpN_eq_iff] at h; subst h; simp [ih]
      | gt => constructor
              · intro hc; cases hc
              · rintro ⟨rfl, rfl⟩; rw [cmpN_self] at h; cases h

theorem cmpPre_eq_iff {a b : List Nat} : cmpPre a b = .eq ↔ a = b := by
  cases a with
  | nil => cases b <;> simp [cmpPre]
  | cons x xs =>
    cases b with
    | nil => simp [cmpPre]
    | cons y ys =>
      have : cmpPre (x :: xs) (y :: ys) = cmpList (x :: xs) (y :: ys) := rfl
      rw [this, cmpList_eq_iff]

theorem cmpN_swap (a b : Nat) : cmpN a b = (cmpN b a).swap := by
  unfold cmpN
  rcases Nat.lt_trichotomy a b with h | h | h
  · have h1 : ¬b < a := by omega
    have h2 : b ≠ a := by omega
    simp [h, h1, h2, Ordering.swap]
  · subst h; simp [Ordering.swap]
  · have h1 : ¬a < b := by omega
    have h2 : a ≠ b := by omega
    simp [h, h1, h2, Ordering.swap]

theorem then_swap (o p : Ordering) : (o.then p).swap = o.swap.then p.swap := by
  cases o <;> cases p <;> rfl

theorem cmpList_swap (a b : List Nat) : cmpList a b = (cmpList b a).swap := by
  induction a generalizing b with
  | nil => cases b <;> rfl
  | cons x xs ih =>
    cases b with
    | nil => rfl
    | cons y ys =>
      simp only [cmpList]
      rw [then_swap, ← cmpN_swap, ← ih]

theorem cmpPre_swap (a b : List Nat) : cmpPre a b = (cmpPre b a).swap := by
  cases a with
  | nil => cases b <;> rfl
  | cons x xs =>
    cases b with
    | nil => rfl
    | cons y ys =>
      show cmpList (x :: xs) (y :: ys) = (cmpList (y :: ys) (x :: xs)).swap
      exact cmpList_swap _ _

theorem cmpN_lt_trans {a b c : Nat} (h₁ : cmpN a b = .lt) (h₂ : cmpN b c = .lt) :
    cmpN a c = .lt := by
  rw [cmpN_lt_iff] at *
  omega

theorem then_eq_lt {o p : Ordering} :
    o.then p = .lt ↔ (o = .lt ∨ (o = .eq ∧ p = .lt)) := by
  cases o <;> simp [Ordering.then]

theorem cmpList_lt_trans {a b c : List Nat} (h₁ : cmpList a b = .lt)
    (h₂ : cmpList b c = .lt) : cmpList a c = .lt := by
  induction a generalizing b c with
  | nil =>
    cases b with
    | nil => cases h₁
    | cons y ys => cases c with
      | nil => cases h₂
      | cons z zs => rfl
  | cons x xs ih =>
    cases b with
    | nil => cases h₁
    | cons y ys =>
      cases c with
      | nil => cases h₂
      | cons z zs =>
        simp only [cmpList, then_eq_lt] at h₁ h₂ ⊢
        rcases h₁ with h₁ | ⟨h₁e, h₁l⟩ <;> rcases h₂ with h₂ | ⟨h₂e, h₂l⟩
        · exact Or.inl (cmpN_lt_trans h₁ h₂)
        · rw [cmpN_eq_iff] at h₂e; subst h₂e; exact Or.inl h₁
        · rw [cmpN_eq_iff] at h₁e; subst h₁e; exact Or.inl h₂
        · rw [cmpN_eq_iff] at h₁e; subst h₁e
          exact Or.inr ⟨h₂e, ih h₁l h₂l⟩

theorem cmpPre_lt_trans {a b c : List Nat} (h₁ : cmpPre a b = .lt)
    (h₂ : cmpPre b c = .lt) : cmpPre a c = .lt := by
  cases a with
  | nil =>
    cases b with
    | nil => cases h₁
    | cons y ys => cases h₁
  | cons x xs =>
    cases b with
    | nil => cases c with
      | nil => cases h₂
      | cons z zs => cases h₂
    | cons y ys =>
      cases c with
      | nil => rfl
      | cons z zs =>
        have h₁' : cmpList (x :: xs) (y :: ys) = .lt := h₁
        have h₂' : cmpList (y :: ys) (z :: zs) = .lt := h₂
        exact cmpList_lt_trans h₁' h₂'

/-- A parsed semantic version: numeric `major.minor.patch` plus an
optional prerelease suffix, modelled as a list of numeric identifiers
(empty list = release).  Mirrors the tuple the spec's data model gives
for the external `semver.SemVer`. -/
structure SemVer where
  major : Nat
  minor : Nat
  patch : Nat
  pre : List Nat
deriving DecidableEq, Repr

/-- Semver precedence (`semver.compare`): numeric fields compare
numerically, and at an equal triple a release sorts after a
prerelease. -/
def cmpV (a b : SemVer) : Ordering :=
  (cmpN a.major b.major).then
    ((cmpN a.minor b.minor).then
      ((cmpN a.patch b.patch).then (cmpPre a.pre b.pre)))

theorem cmpV_self (a : SemVer) : cmpV a a = .eq := by
  simp [cmpV, cmpN_self, cmpPre_self, Ordering.then]

theorem then_eq_eq {o p : Ordering} : o.then p = .eq ↔ (o = .eq ∧ p = .eq) := by
  cases o <;> simp [Ordering.then]

theorem cmpV_eq_iff {a b : SemVer} : cmpV a b = .eq ↔ a = b := by
  cases a; cases b
  simp only [cmpV, then_eq_eq, cmpN_eq_iff, cmpPre_eq_iff, SemVer.mk.injEq]

theorem cmpV_swap (a b : SemVer) : cmpV a b = (cmpV b a).swap := by
  simp only [cmpV]
  rw [then_swap, then_swap, then_swap, ← cmpN_swap, ← cmpN_swap, ← cmpN_swap,
    ← cmpPre_swap]

theorem cmpV_lt_trans {a b c : SemVer} (h₁ : cmpV a b = .lt)
    (h₂ : cmpV b c = .lt) : cmpV a c = .lt := by
  simp only [cmpV, then_eq_lt, then_eq_eq, cmpN_eq_iff, cmpN_lt_iff,
    cmpPre_eq_iff] at h₁ h₂ ⊢
  rcases h₁ with h₁ | ⟨e₁, h₁⟩
  · rcases h₂ with h₂ | ⟨e₂, _⟩
    · exact Or.inl (by omega)
    · exact Or.inl (by omega)
  · rcases h₂ with h₂ | ⟨e₂, h₂⟩
    · exact Or.inl (by omega)
    · refine Or.inr ⟨by omega, ?_⟩
      rcases h₁ with h₁ | ⟨f₁, h₁⟩
      · rcases h₂ with h₂ | ⟨f₂, _⟩
        · exact Or.inl (by omega)
        · exact Or.inl (by omega)
      · rcases h₂ with h₂ | ⟨f₂, h₂⟩
        · exact Or.inl (by omega)
        · refine Or.inr ⟨by omega, ?_⟩
          rcases h₁ with h₁ | ⟨g₁, h₁⟩
          · rcases h₂ with h₂ | ⟨g₂, _⟩
            · exact Or.inl (by omega)
            · exact Or.inl (by omega)
          · rcases h₂ with h₂ | ⟨g₂, h₂⟩
            · exact Or.inl (by omega)
            · exact Or.inr ⟨by omega, cmpPre_lt_trans h₁ h₂⟩

/-- Boolean `a < b` on versions. -/
def ltV (a b : SemVer) : Bool := cmpV a b = Ordering.lt

/-- Boolean `a ≥ b` on versions (`semver.gte`). -/
def geV (a b : SemVer) : Bool := cmpV a b ≠ Ordering.lt

/-- Boolean `a ≤ b` on versions. -/
def leV (a b : SemVer) : Bool := cmpV a b ≠ Ordering.gt

/-- Boolean `a > b` on versions. -/
def gtV (a b : SemVer) : Bool := cmpV a b = Ordering.gt

/-- Boolean `a = b` on versions (`semver.eq`). -/
def eqV (a b : SemVer) : Bool := cmpV a b = Ordering.eq

theorem cmpV_gt_iff_lt {a b : SemVer} : cmpV a b = .gt ↔ cmpV b a = .lt := by
  rw [cmpV_swap a b]
  cases cmpV b a <;> simp [Ordering.swap]

theorem geV_iff {a b : SemVer} : geV a b = true ↔ ¬(cmpV a b = .lt) := by
  simp [geV]

theorem ltV_le_trans {a b c : SemVer} (h₁ : ltV a b = true)
    (h₂ : leV b c = true) : ltV a c = true := by
  simp only [ltV, leV, decide_eq_true_eq] at h₁ h₂ ⊢
  rcases hbc : cmpV b c with hlt | heq | hgt
  · exact cmpV_lt_trans h₁ hbc
  · rw [cmpV_eq_iff] at hbc; subst hbc; exact h₁
  · exact absurd hbc h₂

theorem le_ltV_trans {a b c : SemVer} (h₁ : leV a b = true)
    (h₂ : ltV b c = true) : ltV a c = true := by
  simp only [ltV, leV, decide_eq_true_eq] at h₁ h₂ ⊢
  rcases hab : cmpV a b with hlt | heq | hgt
  · exact cmpV_lt_trans hab h₂
  · rw [cmpV_eq_iff] at hab; subst hab; exact h₂
  · exact absurd hab h₁

theorem geV_trans {a b c : SemVer} (h₁ : geV a b = true)
    (h₂ : geV b c = true) : geV a c = true := by
  simp only [geV, decide_eq_true_eq] at h₁ h₂ ⊢
  intro hac
  rcases hab : cmpV a b with _ | _ | _
  · exact h₁ hab
  · rw [cmpV_eq_iff] at hab; subst hab; exact h₂ hac
  · rw [cmpV_gt_iff_lt] at hab
    exact h₂ (cmpV_lt_trans hab hac)

/-- Strict dominance of the major field: if `a.major < b.major` then
`a < b` in semver precedence. -/
theorem cmpV_lt_of_major_lt {a b : SemVer} (h : a.major < b.major) :
    cmpV a b = .lt := by
  simp only [cmpV, then_eq_lt, cmpN_lt_iff]
  exact Or.inl h

/-- Comparator operators of the semver range grammar.  The parser
normalizes `=x.y.z` and bare `x.y.z` to the empty operator, modelled as
`oEq`. -/
inductive Op
  | oEq
  | oGt
  | oGe
  | oLt
  | oLe
deriving DecidableEq, Repr

/-- The operator's textual form, as in `Comparator.operator`. -/
def opStr : Op → String
  | .oEq => ""
  | .oGt => ">"
  | .oGe => ">="
  | .oLt => "<"
  | .oLe => "<="

/-- `Array.prototype.join`: the separator-joined concatenation of a
list of strings. -/
def joinSep (sep : String) : List String → String
  | [] => ""
  | [x] => x
  | x :: y :: xs => x ++ sep ++ joinSep sep (y :: xs)

/-- Textual form of a version (`SemVer.version`), e.g. `14.17.0` or
`15.0.0-0`. -/
def verStr (v : SemVer) : String :=
  Nat.repr v.major ++ "." ++ Nat.repr v.minor ++ "." ++ Nat.repr v.patch ++
    (if v.pre = [] then ""
     else "-" ++ joinSep "." (v.pre.map Nat.repr))

/-- A single comparator of a comparator group: either the empty
comparator (parsed from `*` or the empty string, matching every
version) or an operator applied to a version. -/
inductive Comparator
  | anyC
  | cmp (op : Op) (ver : SemVer)
deriving DecidableEq, Repr

/-- The comparator's canonical string (`Comparator.value`): operator
concatenated with version, empty for the wildcard comparator. -/
def Comparator.value : Comparator → String
  | .anyC => ""
  | .cmp op v => opStr op ++ verStr v

/-- A comparator group: an AND-joined list of comparators
(`semver.Comparator[]`). -/
abbrev CompGroup := List Comparator

/-- Whether a single version satisfies a single comparator, by semver
precedence (the interval semantics the spec assigns to the external
range primitives). -/
def satC (c : Comparator) (v : SemVer) : Bool :=
  match c with
  | .anyC => true
  | .cmp .oEq w => eqV v w
  | .cmp .oGt w => gtV v w
  | .cmp .oGe w => geV v w
  | .cmp .oLt w => ltV v w
  | .cmp .oLe w => leV v w

/-- Whether a version satisfies every comparator of a group. -/
def satGroup (g : CompGroup) (v : SemVer) : Bool :=
  g.all (fun c => satC c v)

/-- Whether a version satisfies some group of a comparator-set list
(the OR of the groups). -/
def satSet (set : List CompGroup) (v : SemVer) : Bool :=
  set.any (fun g => satGroup g v)

/-- Lower bound of an interval: unbounded, or inclusive/exclusive at a
version. -/
inductive LBound
  | unb
  | bnd (strict : Bool) (v : SemVer)
deriving DecidableEq, Repr

/-- Upper bound of an interval: unbounded, or inclusive/exclusive at a
version. -/
inductive UBound
  | unb
  | bnd (strict : Bool) (v : SemVer)
deriving DecidableEq, Repr

/-- Keep the higher (more restrictive) of two lower bounds. -/
def maxLB (a b : LBound) : LBound :=
  match a, b with
  | .unb, b => b
  | a, .unb => a
  | .bnd s₁ v₁, .bnd s₂ v₂ =>
    match cmpV v₁ v₂ with
    | .lt => .bnd s₂ v₂
    | .gt => .bnd s₁ v₁
    | .eq => .bnd (s₁ || s₂) v₁

/-- Keep the lower (more restrictive) of two upper bounds. -/
def minUB (a b : UBound) : UBound :=
  match a, b with
  | .unb, b => b
  | a, .unb => a
  | .bnd s₁ v₁, .bnd s₂ v₂ =>
    match cmpV v₁ v₂ with
    | .lt => .bnd s₁ v₁
    | .gt => .bnd s₂ v₂
    | .eq => .bnd (s₁ || s₂) v₁

/-- The lower bound a single comparator imposes. -/
def compLB : Comparator → LBound
  | .anyC => .unb
  | .cmp .oEq v => .bnd false v
  | .cmp .oGt v => .bnd true v
  | .cmp .oGe v => .bnd false v
  | .cmp .oLt _ => .unb
  | .cmp .oLe _ => .unb

/-- The upper bound a single comparator imposes. -/
def compUB : Comparator → UBound
  | .anyC => .unb
  | .cmp .oEq v => .bnd false v
  | .cmp .oLt v => .bnd true v
  | .cmp .oLe v => .bnd false v
  | .cmp .oGt _ => .unb
  | .cmp .oGe _ => .unb

/-- The combined lower bound of a comparator group. -/
def groupLB (g : CompGroup) : LBound :=
  g.foldl (fun acc c => maxLB acc (compLB c)) .unb

/-- The combined upper bound of a comparator group. -/
def groupUB (g : CompGroup) : UBound :=
  g.foldl (fun acc c => minUB acc (compUB c)) .unb

/-- Whether the interval between a lower and an upper bound contains at
least one point of the (dense-below-releases) version order.  Two equal
endpoint versions still give a nonempty interval only when both ends
are inclusive. -/
def boundsCompat (l : LBound) (u : UBound) : Bool :=
  match l, u with
  | .unb, _ => true
  | _, .unb => true
  | .bnd s₁ v₁, .bnd s₂ v₂ =>
    match cmpV v₁ v₂ with
    | .lt => true
    | .gt => false
    | .eq => !s₁ && !s₂

/-- Whether the group's interval is empty. -/
def groupEmpty (g : CompGroup) : Bool :=
  !boundsCompat (groupLB g) (groupUB g)

/-- Lower bound `a` is at least as high (restrictive) as `b`. -/
def lbGE (a b : LBound) : Bool :=
  match a, b with
  | _, .unb => true
  | .unb, .bnd _ _ => false
  | .bnd s₁ v₁, .bnd s₂ v₂ =>
    match cmpV v₁ v₂ with
    | .gt => true
    | .lt => false
    | .eq => s₁ || !s₂

/-- Upper bound `a` is at least as low (restrictive) as `b`. -/
def ubLE (a b : UBound) : Bool :=
  match a, b with
  | _, .unb => true
  | .unb, .bnd _ _ => false
  | .bnd s₁ v₁, .bnd s₂ v₂ =>
    match cmpV v₁ v₂ with
    | .lt => true
    | .gt => false
    | .eq => s₁ || !s₂

/-- Group containment: an empty group is contained in anything, and a
nonempty interval is contained in another iff its bounds are nested. -/
def groupSubset (g h : CompGroup) : Bool :=
  groupEmpty g || (lbGE (groupLB g) (groupLB h) && ubLE (groupUB g) (groupUB h))

/-- Whether two groups' intervals overlap. -/
def groupIntersects (g h : CompGroup) : Bool :=
  !groupEmpty g && !groupEmpty h &&
    boundsCompat (maxLB (groupLB g) (groupLB h)) (minUB (groupUB g) (groupUB h))

/-- A parsed range (`semver.Range`): the original raw text plus the
parsed comparator-set list.  Every `Range` the program builds satisfies
`set = parse raw`; the embedding carries both fields explicitly. -/
structure Range where
  raw : String
  set : List CompGroup
deriving DecidableEq, Repr

/-- Sort key of a group: the version of its first comparator
(`a[0].semver`).  A wildcard or empty head never reaches the comparator
in the program (a wildcard group only ever occurs alone, and the sort
callback is not invoked on singleton lists), so the key there is a
dummy. -/
def groupKey (g : CompGroup) : SemVer :=
  match g with
  | .cmp _ v :: _ => v
  | _ => ⟨0, 0, 0, []⟩

/-- Stable insertion of a group into a list sorted by `groupKey`
ascending; equal keys keep earlier elements first. -/
def insertG (g : CompGroup) : List CompGroup → List CompGroup
  | [] => [g]
  | h :: t =>
    if cmpV (groupKey g) (groupKey h) = .lt then g :: h :: t
    else h :: insertG g t

/-- `sortRangeSet`: shallow-copies the set and sorts the groups by the
semver value of each group's first comparator (stable, as the
engine's `Array.prototype.sort` is). -/
def sortRangeSet (set : List CompGroup) : List CompGroup :=
  set.foldl (fun acc g => insertG g acc) []

/-- Space-joined comparator values of a group, as `setToRange` renders
them. -/
def renderGroup (g : CompGroup) : String :=
  joinSep " " (g.map Comparator.value)

/-- The `||`-joined textual form of a comparator-set list (the
`Range.range` normal form). -/
def renderSet (set : List CompGroup) : String :=
  joinSep "||" (set.map renderGroup)

/-- `setToRange`: rebuilds a `Range` from a group list by re-parsing the
`||`-join of the groups' comparator values.  An empty join parses, as
`new Range('')` does, to the single wildcard group matching every
version. -/
def setToRange (set : List CompGroup) : Range :=
  if renderSet set = "" then { raw := "", set := [[.anyC]] }
  else { raw := renderSet set, set := set }

/-- `semver.subset r1 r2`: every group of `r1` is contained in some
group of `r2` (modelled from the spec's `isSubsetRange` collaborator
contract with interval semantics). -/
def subsetR (r1 r2 : Range) : Bool :=
  r1.set.all (fun g => r2.set.any (fun h => groupSubset g h))

/-- `r1.intersects(r2)`: some group of each overlaps (modelled from the
spec's `rangesIntersect` collaborator contract). -/
def intersectsR (r1 r2 : Range) : Bool :=
  r1.set.any (fun g => r2.set.any (fun h => groupIntersects g h))

/-- Whether a version satisfies a range. -/
def satRange (r : Range) (v : SemVer) : Bool := satSet r.set v

/-- The smallest version a `>` comparator admits: bump the patch of a
release, or append a zero identifier to a prerelease (as
`semver.minVersion` computes it). -/
def bumpGt (v : SemVer) : SemVer :=
  if v.pre = [] then { v with patch := v.patch + 1 }
  else { v with pre := v.pre ++ [0] }

/-- Greater-of accumulator used per group by `minVersion` (a strictly
greater candidate replaces the current one). -/
def maxCand (acc : Option SemVer) (w : SemVer) : Option SemVer :=
  match acc with
  | none => some w
  | some x => if gtV w x then some w else some x

/-- The per-group minimum candidate of `semver.minVersion`: the highest
lower-bound version the group's `>`, `>=` and `=` comparators impose. -/
def groupMinCand (g : CompGroup) : Option SemVer :=
  g.foldl (fun acc c =>
    match c with
    | .cmp .oGt v => maxCand acc (bumpGt v)
    | .cmp .oGe v => maxCand acc v
    | .cmp .oEq v => maxCand acc v
    | _ => acc) none

/-- Smaller-of accumulator across groups (`minVersion` keeps the least
group candidate). -/
def minCand (acc : Option SemVer) (c : Option SemVer) : Option SemVer :=
  match c with
  | none => acc
  | some w =>
    match acc with
    | none => some w
    | some x => if gtV x w then some w else some x

/-- `semver.minVersion`: the lowest version satisfying the range, or
`none` (modelled from the spec's `minSatisfyingVersion` collaborator
contract; range membership is the interval semantics of `satSet`). -/
def minVersionR (r : Range) : Option SemVer :=
  if satSet r.set ⟨0, 0, 0, []⟩ then some ⟨0, 0, 0, []⟩
  else if satSet r.set ⟨0, 0, 0, [0]⟩ then some ⟨0, 0, 0, [0]⟩
  else
    match r.set.foldl (fun acc g => minCand acc (groupMinCand g)) none with
    | none => none
    | some mv => if satSet r.set mv then some mv else none

/-- The filter predicate of `applyMinVersionToRangeSet`:
`c[0].semver.major >= minVersion.major` (false for a wildcard or empty
head, whose `semver.major` is undefined). -/
def keepGroupAtMin (minV : SemVer) (c : CompGroup) : Bool :=
  match c with
  | .cmp _ v :: _ => minV.major ≤ v.major
  | _ => false

/-- The map step of `applyMinVersionToRangeSet`: replace the first
comparator by the same operator at the floor when the head's major
equals the floor's major and the floor is at least the head's
version. -/
def raiseGroupToMin (minV : SemVer) (c : CompGroup) : CompGroup :=
  match c with
  | .cmp op v :: rest =>
    if v.major = minV.major ∧ geV minV v then .cmp op minV :: rest
    else .cmp op v :: rest
  | other => other

/-- `applyMinVersionToRangeSet`: drop every group whose first
comparator's major version is below the floor's major, then replace
the first comparator of each same-major group whose version the floor
reaches by the same operator applied to the floor. -/
def applyMinVersionToRangeSet (set : List CompGroup) (minV : SemVer) :
    List CompGroup :=
  (set.filter (keepGroupAtMin minV)).map (raiseGroupToMin minV)

/-- Errors of the embedded computation.  `notImplemented` is the
`'Not yet implemented :/'` raise on floor-aligned ranges that no longer
intersect; `noHead` is the same raise at the exhausted-heads check;
`star` models the `TypeError` of the `new SemVer('*')` fallback when a
range has no minimum version; `outOfFuel` marks exhausted recursion
fuel (the program itself has no such guard). -/
inductive RErr
  | outOfFuel
  | star
  | notImplemented
  | noHead
deriving DecidableEq, Repr

/-- Floor-align a range: sort its set, clip it at the floor and rebuild
a range (the `setToRange(applyMinVersionToRangeSet(sorted, minSemver))`
composition of the source). -/
def clipAt (r : Range) (minS : SemVer) : Range :=
  setToRange (applyMinVersionToRangeSet (sortRangeSet r.set) minS)

/-- `restrictiveRange`: the most-restrictive-range reducer, with the
recursion depth made explicit as fuel and the mutated `ignoredRanges`
array threaded through.   Branches in source order: the two subset
short-circuits, the minimum-version computations, floor alignment with
recursion (or the unimplemented-configuration raise when the realigned
ranges are disjoint), and the group-by-group merge consuming one head
from each sorted list. -/
def restrictiveRange : Nat → Range → Range → List String →
    Except RErr (Range × List String)
  | 0, _, _, _ => .error .outOfFuel
  | fuel + 1, r1, r2, ign =>
    if subsetR r1 r2 then .ok (r1, ign ++ [r2.raw])
    else if subsetR r2 r1 then .ok (r2, ign ++ [r1.raw])
    else
      match minVersionR r1, minVersionR r2 with
      | none, _ => .error .star
      | some _, none => .error .star
      | some m1, some m2 =>
        if cmpV m1 m2 = .eq then
          match (sortRangeSet r1.set).head?.orElse
              (fun _ => (sortRangeSet r2.set).head?) with
          | none => .error .noHead
          | some minComp =>
            match restrictiveRange fuel (setToRange (sortRangeSet r1.set).tail)
                (setToRange (sortRangeSet r2.set).tail) ign with
            | .error e => .error e
            | .ok (nr, ign2) =>
              .ok (setToRange (minComp :: sortRangeSet nr.set), ign2)
        else
          if intersectsR (clipAt r1 (if cmpV m1 m2 = .lt then m2 else m1))
              (clipAt r2 (if cmpV m1 m2 = .lt then m2 else m1)) then
            restrictiveRange fuel
              (clipAt r1 (if cmpV m1 m2 = .lt then m2 else m1))
              (clipAt r2 (if cmpV m1 m2 = .lt then m2 else m1)) ign
          else .error .notImplemented

/-- The space-join-and-trim of two comparator values in the humanizer's
fallback branch; comparator values contain no spaces, so the trim
reduces to dropping an empty side. -/
def joinVals (f t : String) : String :=
  if f = "" then t else if t = "" then f else f ++ " " ++ t

/-- Rendering of one comparator group inside `humanizeRange`: the caret
form for an exact `>=lo <hi` pair with `hi.major = lo.major + 1`, the
literal value of a single `>=` comparator (or of any single
comparator, which the fallback also renders as its value), else the
space-joined first two comparator values. -/
def humanizeComps : CompGroup → String
  | [] => ""
  | [c] => c.value
  | f :: t :: rest =>
    match f, t with
    | .cmp .oGe lo, .cmp .oLt hi =>
      if rest.isEmpty ∧ lo.major + 1 = hi.major then "^" ++ verStr lo
      else joinVals (Comparator.cmp .oGe lo).value (Comparator.cmp .oLt hi).value
    | f, t => joinVals f.value t.value

/-- `humanizeRange`: `*` for an absent range or the raw text `*`, else
the ` || `-join of the sorted groups' renderings. -/
def humanizeRange : Option Range → String
  | none => "*"
  | some r =>
    if r.raw = "*" then "*"
    else joinSep " || " ((sortRangeSet r.set).map humanizeComps)

/-- The constraint a dependency contributes for one engine, as the
aggregation loop observes it after `getConstraintFromEngines` and
`semver.validRange`: absent, present but not a valid range, or a valid
range carried as its parsed comparator-set list. -/
inductive DepConstraint
  | missing
  | invalid
  | valid (set : List CompGroup)
deriving DecidableEq, Repr

/-- The normalized text `semver.validRange` returns for a valid
constraint: the `Range.range` normal form, or `*` when that form is
empty (the `|| '*'` fallback of `validRange`). -/
def rawValid (set : List CompGroup) : String :=
  if renderSet set = "" then "*" else renderSet set

/-- The `new semver.Range(rawValidRange, rangeOptions)` value built from
a validated constraint. -/
def rangeOfValid (set : List CompGroup) : Range :=
  if renderSet set = "" then { raw := "*", set := [[.anyC]] }
  else { raw := renderSet set, set := set }

/-- State of one aggregation run: the accumulator (kept optional to
mirror the program's `!mrr` check), the ignored-ranges list, and a flag
recording whether the adopt-directly branch was ever taken. -/
structure AggState where
  mrr : Option Range
  ignoredRanges : List String
  adopted : Bool
deriving DecidableEq, Repr

/-- One iteration of `computeEnginesConstraint`'s loop over the
packages: skip a missing constraint, skip an invalid one, skip one
whose validated text is already ignored, adopt into an undefined
accumulator, else reduce with `restrictiveRange` and keep the old
accumulator object when the raw texts coincide. -/
def aggStep (fuel : Nat) (st : AggState) (e : String × DepConstraint) :
    Except RErr AggState :=
  match e.2 with
  | .missing => .ok st
  | .invalid => .ok st
  | .valid set =>
    if st.ignoredRanges.contains (rawValid set) then .ok st
    else
      match st.mrr with
      | none => .ok { st with mrr := some (rangeOfValid set), adopted := true }
      | some mrr =>
        match restrictiveRange fuel mrr (rangeOfValid set) st.ignoredRanges with
        | .error err => .error err
        | .ok (nr, ign2) =>
          .ok { mrr := some (if mrr.raw = nr.raw then mrr else nr),
                ignoredRanges := ign2, adopted := st.adopted }

/-- Folding the aggregation step over the package list, propagating the
reducer's raise. -/
def runAgg (fuel : Nat) (st : AggState) :
    List (String × DepConstraint) → Except RErr AggState
  | [] => .ok st
  | e :: es =>
    match aggStep fuel st e with
    | .error err => .error err
    | .ok st2 => runAgg fuel st2 es

/-- The universal range `new semver.Range('*')`. -/
def universalRange : Range := { raw := "*", set := [[Comparator.anyC]] }

/-- Initial aggregation state: the accumulator starts as the universal
range, the ignored list empty. -/
def aggInitState : AggState :=
  { mrr := some universalRange, ignoredRanges := [], adopted := false }

/-- `computeEnginesConstraint`: one aggregation run over the ordered
package list for a single engine name. -/
def computeEnginesConstraint (fuel : Nat)
    (packages : List (String × DepConstraint)) : Except RErr AggState :=
  runAgg fuel aggInitState packages

/-- Release version `a.b.c`. -/
def v3 (a b c : Nat) : SemVer := ⟨a, b, c, []⟩

/-- Prerelease version `a.b.c-p`. -/
def vp (a b c : Nat) (p : List Nat) : SemVer := ⟨a, b, c, p⟩

/-- A `>=` comparator. -/
def cGe (v : SemVer) : Comparator := .cmp .oGe v

/-- A `<` comparator. -/
def cLt (v : SemVer) : Comparator := .cmp .oLt v

/-- The comparator group the parser produces for `^a.b.c`:
`>=a.b.c <(a+1).0.0-0`. -/
def caretG (a b c : Nat) : CompGroup := [cGe (v3 a b c), cLt (vp (a + 1) 0 0 [0])]

theorem lbGE_refl (l : LBound) : lbGE l l = true := by
  cases l with
  | unb => rfl
  | bnd s v => simp [lbGE, cmpV_self]

theorem ubLE_refl (u : UBound) : ubLE u u = true := by
  cases u with
  | unb => rfl
  | bnd s v => simp [ubLE, cmpV_self]

theorem groupSubset_refl (g : CompGroup) : groupSubset g g = true := by
  simp [groupSubset, lbGE_refl, ubLE_refl]

theorem subsetR_refl (r : Range) : subsetR r r = true := by
  simp only [subsetR, List.all_eq_true]
  intro g hg
  exact List.any_eq_true.mpr ⟨g, hg, groupSubset_refl g⟩

/-- Every rebuilt range has a nonempty comparator-set list: the empty
join re-parses to the wildcard group. -/
theorem setToRange_set_ne_nil (s : List CompGroup) : (setToRange s).set ≠ [] := by
  unfold setToRange
  split
  · simp
  · intro h
    simp only [h] at *
    simp_all [renderSet, joinSep]

theorem insertG_length (g : CompGroup) (l : List CompGroup) :
    (insertG g l).length = l.length + 1 := by
  induction l with
  | nil => rfl
  | cons h t ih =>
    unfold insertG
    split
    · simp
    · simp [ih]

theorem sortRangeSet_length (s : List CompGroup) :
    (sortRangeSet s).length = s.length := by
  have key : ∀ (l : List CompGroup) (acc : List CompGroup),
      (l.foldl (fun acc g => insertG g acc) acc).length = acc.length + l.length := by
    intro l
    induction l with
    | nil => intro acc; simp
    | cons h t ih =>
      intro acc
      simp only [List.foldl_cons, ih, insertG_length, List.length_cons]
      omega
  simpa using key s []

theorem sortRangeSet_ne_nil {s : List CompGroup} (h : s ≠ []) :
    sortRangeSet s ≠ [] := by
  intro hc
  have := sortRangeSet_length s
  rw [hc] at this
  simp at this
  exact h (List.eq_nil_of_length_eq_zero this.symm)

theorem toDigitsCore_len_le (b : Nat) :
    ∀ (f n : Nat) (l : List Char), l.length ≤ (Nat.toDigitsCore b f n l).length := by
  intro f
  induction f with
  | zero => intro n l; simp [Nat.toDigitsCore]
  | succ f ih =>
    intro n l
    by_cases h : n / b = 0
    · simp [Nat.toDigitsCore, h]
    · simp only [Nat.toDigitsCore, h, if_false]
      calc l.length ≤ (Nat.digitChar (n % b) :: l).length := by simp
        _ ≤ _ := ih _ _

theorem toDigitsCore_len_pos (b f n : Nat) (l : List Char) :
    l.length < (Nat.toDigitsCore b (f + 1) n l).length := by
  by_cases h : n / b = 0
  · simp [Nat.toDigitsCore, h]
  · simp only [Nat.toDigitsCore, h, if_false]
    calc l.length < (Nat.digitChar (n % b) :: l).length := by simp
      _ ≤ _ := toDigitsCore_len_le b _ _ _

theorem natRepr_len_pos (n : Nat) : 0 < (Nat.repr n).length := by
  unfold Nat.repr Nat.toDigits
  have h := toDigitsCore_len_pos 10 n n []
  simpa [List.asString] using h

theorem verStr_len_pos (v : SemVer) : 0 < (verStr v).length := by
  unfold verStr
  simp only [String.length_append]
  have := natRepr_len_pos v.major
  omega

/-- A non-wildcard comparator has a nonempty canonical string. -/
theorem value_len_pos {c : Comparator} (h : c ≠ .anyC) : 0 < c.value.length := by
  cases c with
  | anyC => exact absurd rfl h
  | cmp op v =>
    simp only [Comparator.value, String.length_append]
    have := verStr_len_pos v
    omega

theorem eq_empty_of_len_zero {s : String} (h : s.length = 0) : s = "" := by
  cases s with
  | mk data =>
    cases data with
    | nil => rfl
    | cons c cs => simp at h

theorem joinSep_len_ge_head (sep x : String) (xs : List String) :
    x.length ≤ (joinSep sep (x :: xs)).length := by
  cases xs with
  | nil => simp [joinSep]
  | cons y ys =>
    simp only [joinSep, String.length_append]
    omega

theorem joinSep_len_ge_mem (sep s : String) :
    ∀ (l : List String), s ∈ l → s.length ≤ (joinSep sep l).length := by
  intro l
  induction l with
  | nil => intro h; cases h
  | cons x xs ih =>
    intro hmem
    rcases List.mem_cons.mp hmem with rfl | hmem
    · exact joinSep_len_ge_head sep s xs
    · cases xs with
      | nil => cases hmem
      | cons y ys =>
        calc s.length ≤ (joinSep sep (y :: ys)).length := ih hmem
          _ ≤ _ := by
            simp only [joinSep, String.length_append]
            omega

/-- A group containing a non-wildcard comparator renders to a nonempty
string. -/
theorem renderGroup_ne_empty {g : CompGroup} {c : Comparator} (hc : c ∈ g)
    (hne : c ≠ .anyC) : renderGroup g ≠ "" := by
  intro hcon
  have h1 : c.value ∈ g.map Comparator.value := List.mem_map_of_mem _ hc
  have h2 := joinSep_len_ge_mem " " c.value _ h1
  rw [show joinSep " " (g.map Comparator.value) = renderGroup g from rfl, hcon] at h2
  have h3 := value_len_pos hne
  have h4 : ("" : String).length = 0 := rfl
  omega

theorem renderSet_ne_empty {set : List CompGroup} {g : CompGroup} (hg : g ∈ set)
    (hne : renderGroup g ≠ "") : renderSet set ≠ "" := by
  intro hcon
  have h1 : renderGroup g ∈ set.map renderGroup := List.mem_map_of_mem _ hg
  have h2 := joinSep_len_ge_mem "||" (renderGroup g) _ h1
  rw [show joinSep "||" (set.map renderGroup) = renderSet set from rfl, hcon] at h2
  have h4 : ("" : String).length = 0 := rfl
  exact hne (eq_empty_of_len_zero (by omega))

/-- C1.  Subset absorption: when `a` is a subset of `b` the reducer
returns `a` and appends `b`'s raw text to the ignored list; when
instead only `b` is a subset of `a` it returns `b` and appends `a`'s
raw text; and on identical arguments it returns the argument (whose
raw text is appended, the argument being a subset of itself). -/
theorem c1_subset_absorption (a b r : Range) (ign : List String) (fuel : Nat) :
    (subsetR a b = true →
      restrictiveRange (fuel + 1) a b ign = .ok (a, ign ++ [b.raw])) ∧
    (subsetR a b = false → subsetR b a = true →
      restrictiveRange (fuel + 1) a b ign = .ok (b, ign ++ [a.raw])) ∧
    restrictiveRange (fuel + 1) r r ign = .ok (r, ign ++ [r.raw]) := by
  refine ⟨fun h => ?_, fun h1 h2 => ?_, ?_⟩
  · simp [restrictiveRange, h]
  · simp [restrictiveRange, h1, h2]
  · simp [restrictiveRange, subsetR_refl]

def w1a : Range := rangeOfValid [[cGe (v3 1 2 3)]]

def w1b : Range := rangeOfValid [[cGe (v3 1 0 0)]]

def w1r : Range := rangeOfValid [[cGe (v3 2 0 0)]]

/-- Witness for C1 at `a = >=1.2.3`, `b = >=1.0.0`, `r = >=2.0.0`. -/
theorem c1_subset_absorption_witness :
    restrictiveRange 1 w1a w1b [] = .ok (w1a, [w1b.raw]) ∧
    restrictiveRange 1 w1b w1a [] = .ok (w1a, [w1b.raw]) ∧
    restrictiveRange 1 w1r w1r [] = .ok (w1r, [w1r.raw]) :=
  ⟨(c1_subset_absorption w1a w1b w1r [] 0).1 (by decide),
   (c1_subset_absorption w1b w1a w1r [] 0).2.1 (by decide) (by decide),
   (c1_subset_absorption w1a w1b w1r [] 0).2.2⟩

/-- C7.  Caret humanization: a group of exactly two comparators
`>=lo <hi` with `hi.major = lo.major + 1` is rendered as `^lo`. -/
theorem c7_caret_humanization (lo hi : SemVer) (h : hi.major = lo.major + 1) :
    humanizeRange (some (setToRange [[Comparator.cmp .oGe lo, Comparator.cmp .oLt hi]]))
      = "^" ++ verStr lo := by
  have hcne : (Comparator.cmp .oGe lo) ≠ .anyC := by simp
  have hgne : renderGroup [Comparator.cmp .oGe lo, Comparator.cmp .oLt hi] ≠ "" :=
    renderGroup_ne_empty (List.mem_cons_self _ _) hcne
  have hsne : renderSet [[Comparator.cmp .oGe lo, Comparator.cmp .oLt hi]] ≠ "" :=
    renderSet_ne_empty (List.mem_singleton.mpr rfl) hgne
  have hlen : 3 ≤ (renderSet [[Comparator.cmp .oGe lo, Comparator.cmp .oLt hi]]).length := by
    have h1 : renderGroup [Comparator.cmp .oGe lo, Comparator.cmp .oLt hi]
        ∈ [[Comparator.cmp .oGe lo, Comparator.cmp .oLt hi]].map renderGroup := by simp
    have h2 := joinSep_len_ge_mem "||" _ _ h1
    have h3 : (Comparator.cmp .oGe lo).value
        ∈ [Comparator.cmp .oGe lo, Comparator.cmp .oLt hi].map Comparator.value := by simp
    have h4 := joinSep_len_ge_mem " " _ _ h3
    have h5 : (Comparator.cmp .oGe lo).value.length = 2 + (verStr lo).length := by
      have hop : (">=" : String).length = 2 := rfl
      simp only [Comparator.value, opStr, String.length_append, hop]
    have h6 := verStr_len_pos lo
    rw [show joinSep " " ([Comparator.cmp .oGe lo, Comparator.cmp .oLt hi].map Comparator.value)
        = renderGroup [Comparator.cmp .oGe lo, Comparator.cmp .oLt hi] from rfl] at h4
    rw [show joinSep "||" ([[Comparator.cmp .oGe lo, Comparator.cmp .oLt hi]].map renderGroup)
        = renderSet [[Comparator.cmp .oGe lo, Comparator.cmp .oLt hi]] from rfl] at h2
    omega
  have hstar : renderSet [[Comparator.cmp .oGe lo, Comparator.cmp .oLt hi]] ≠ "*" := by
    intro hcon
    rw [hcon] at hlen
    have : ("*" : String).length = 1 := rfl
    omega
  unfold setToRange
  rw [if_neg hsne]
  simp only [humanizeRange]
  rw [if_neg hstar]
  have hsort : sortRangeSet [[Comparator.cmp .oGe lo, Comparator.cmp .oLt hi]]
      = [[Comparator.cmp .oGe lo, Comparator.cmp .oLt hi]] := rfl
  rw [hsort]
  simp only [List.map]
  rw [show joinSep " || " [humanizeComps [Comparator.cmp .oGe lo, Comparator.cmp .oLt hi]]
      = humanizeComps [Comparator.cmp .oGe lo, Comparator.cmp .oLt hi] from rfl]
  show (if (List.isEmpty ([] : List Comparator)) = true ∧ lo.major + 1 = hi.major
      then "^" ++ verStr lo
      else joinVals (Comparator.cmp Op.oGe lo).value (Comparator.cmp Op.oLt hi).value)
    = "^" ++ verStr lo
  rw [if_pos ⟨rfl, h.symm⟩]

/-- Witness for C7 at `m = 14`: humanizing `>=14.0.0 <15.0.0-0` gives
`^14.0.0`. -/
theorem c7_caret_humanization_witness :
    humanizeRange (some (setToRange [[Comparator.cmp .oGe (v3 14 0 0),
      Comparator.cmp .oLt (vp 15 0 0 [0])]])) = "^14.0.0" := by
  have h := c7_caret_humanization (v3 14 0 0) (vp 15 0 0 [0]) (by decide)
  rw [h]
  decide

/-- C8.  Universal-range humanization: an absent range, and any range
whose raw text is the universal range `*`, humanize to `*`. -/
theorem c8_universal_humanize (r : Range) (h : r.raw = "*") :
    humanizeRange none = "*" ∧ humanizeRange (some r) = "*" := by
  constructor
  · rfl
  · simp [humanizeRange, h]

/-- Witness for C8 at the universal range `new Range('*')`. -/
theorem c8_universal_humanize_witness :
    humanizeRange none = "*" ∧ humanizeRange (some universalRange) = "*" :=
  c8_universal_humanize universalRange rfl

def c9entries : List (String × DepConstraint) :=
  [("foo", .valid [[cGe (v3 12 22 0)]]),
   ("bar", .invalid),
   ("lorem", .valid [[cGe (v3 14 17 0)]])]

/-- C9.  An invalid constraint is skipped without an error and without
touching the aggregation state, and the scenario
`>=12.22.0, >=a.b.c (invalid), >=14.17.0` aggregates to `>=14.17.0`. -/
theorem c9_invalid_skipped (fuel : Nat) (st : AggState) (name : String) :
    aggStep fuel st (name, .invalid) = .ok st ∧
    computeEnginesConstraint 3 c9entries =
      .ok { mrr := some (rangeOfValid [[cGe (v3 14 17 0)]]),
            ignoredRanges := ["*", ">=12.22.0"],
            adopted := false } := by
  constructor
  · rfl
  · rfl

theorem insertG_mem {x g : CompGroup} :
    ∀ {l : List CompGroup}, x ∈ insertG g l → x = g ∨ x ∈ l := by
  intro l
  induction l with
  | nil => intro h; simp [insertG] at h; exact Or.inl h
  | cons h t ih =>
    intro hmem
    unfold insertG at hmem
    split at hmem
    · rcases List.mem_cons.mp hmem with rfl | hmem
      · exact Or.inl rfl
      · exact Or.inr hmem
    · rcases List.mem_cons.mp hmem with rfl | hmem
      · exact Or.inr (List.mem_cons_self _ _)
      · rcases ih hmem with h1 | h1
        · exact Or.inl h1
        · exact Or.inr (List.mem_cons_of_mem _ h1)

theorem sortRangeSet_mem {x : CompGroup} {s : List CompGroup}
    (h : x ∈ sortRangeSet s) : x ∈ s := by
  have key : ∀ (l acc : List CompGroup), x ∈ l.foldl (fun acc g => insertG g acc) acc →
      x ∈ acc ∨ x ∈ l := by
    intro l
    induction l with
    | nil => intro acc h; exact Or.inl h
    | cons hd tl ih =>
      intro acc hmem
      simp only [List.foldl_cons] at hmem
      rcases ih _ hmem with h1 | h1
      · rcases insertG_mem h1 with rfl | h2
        · exact Or.inr (List.mem_cons_self _ _)
        · exact Or.inl h2
      · exact Or.inr (List.mem_cons_of_mem _ h1)
  rcases key s [] h with h1 | h1
  · cases h1
  · exact h1

theorem maxLB_unb (a : LBound) : maxLB a .unb = a := by
  cases a <;> rfl

theorem minUB_unb (a : UBound) : minUB a .unb = a := by
  cases a <;> rfl

/-- A group of wildcard comparators only imposes no bounds. -/
theorem allAny_bounds {g : CompGroup} (h : ∀ c ∈ g, c = Comparator.anyC) :
    groupLB g = .unb ∧ groupUB g = .unb := by
  induction g with
  | nil => exact ⟨rfl, rfl⟩
  | cons c cs ih =>
    have hc : c = Comparator.anyC := h c (List.mem_cons_self _ _)
    subst hc
    have hrest : ∀ c ∈ cs, c = Comparator.anyC := fun c hc => h c (List.mem_cons_of_mem _ hc)
    have := ih hrest
    constructor
    · show groupLB (Comparator.anyC :: cs) = .unb
      unfold groupLB at *
      simp only [List.foldl_cons, compLB, maxLB_unb]
      exact this.1
    · show groupUB (Comparator.anyC :: cs) = .unb
      unfold groupUB at *
      simp only [List.foldl_cons, compUB, minUB_unb]
      exact this.2

/-- A range containing a fully unbounded group contains every other
range (per the modelled subset primitive). -/
theorem subsetR_true_of_unbounded_mem {r1 r2 : Range} {g : CompGroup}
    (hg : g ∈ r1.set) (hlb : groupLB g = .unb) (hub : groupUB g = .unb) :
    subsetR r2 r1 = true := by
  simp only [subsetR, List.all_eq_true]
  intro x hx
  refine List.any_eq_true.mpr ⟨g, hg, ?_⟩
  simp [groupSubset, hlb, hub, lbGE, ubLE]

/-- Unfolding of the group-merge branch of the reducer: equal defined
minimum versions, neither range a subset of the other. -/
theorem restrictiveRange_merge (fuel : Nat) (r1 r2 : Range) (ign : List String)
    (m : SemVer) (g : CompGroup) (gs : List CompGroup)
    (h₁ : subsetR r1 r2 = false) (h₂ : subsetR r2 r1 = false)
    (hm₁ : minVersionR r1 = some m) (hm₂ : minVersionR r2 = some m)
    (hs : sortRangeSet r1.set = g :: gs) :
    restrictiveRange (fuel + 1) r1 r2 ign =
      match restrictiveRange fuel (setToRange gs)
          (setToRange (sortRangeSet r2.set).tail) ign with
      | .error e => .error e
      | .ok (nr, ign2) => .ok (setToRange (g :: sortRangeSet nr.set), ign2) := by
  simp only [restrictiveRange, h₁, h₂, hm₁, hm₂, hs, cmpV_self, if_pos,
    Bool.false_eq_true, if_false, List.head?, Option.orElse, List.tail]

/-- C5.  Head tie-break: with equal defined minimum versions and
neither range a subset of the other, a successful reduction returns a
range whose first comparator group is the head of `r1`'s sorted group
list (which is never empty for a parsed range, so `r2`'s head is never
chosen). -/
theorem c5_head_tiebreak (fuel : Nat) (r1 r2 : Range) (ign ign2 : List String)
    (res : Range) (m : SemVer)
    (h₁ : subsetR r1 r2 = false) (h₂ : subsetR r2 r1 = false)
    (hm₁ : minVersionR r1 = some m) (hm₂ : minVersionR r2 = some m)
    (hne : sortRangeSet r1.set ≠ [])
    (hres : restrictiveRange (fuel + 1) r1 r2 ign = .ok (res, ign2)) :
    res.set.head? = (sortRangeSet r1.set).head? := by
  cases hs : sortRangeSet r1.set with
  | nil => exact absurd hs hne
  | cons g gs =>
    rw [restrictiveRange_merge fuel r1 r2 ign m g gs h₁ h₂ hm₁ hm₂ hs] at hres
    cases hrec : restrictiveRange fuel (setToRange gs)
        (setToRange (sortRangeSet r2.set).tail) ign with
    | error e => rw [hrec] at hres; cases hres
    | ok p =>
      rw [hrec] at hres
      obtain ⟨nr, ign3⟩ := p
      simp only at hres
      have hresq : res = setToRange (g :: sortRangeSet nr.set) := by
        cases hres; rfl
      -- the head group contains a bounding comparator, else r2 ⊆ r1
      have hany : ¬(∀ c ∈ g, c = Comparator.anyC) := by
        intro hall
        obtain ⟨hlb, hub⟩ := allAny_bounds hall
        have hgmem : g ∈ r1.set := sortRangeSet_mem (hs ▸ List.mem_cons_self g gs)
        exact absurd (subsetR_true_of_unbounded_mem hgmem hlb hub) (by rw [h₂]; simp)
      push_neg at hany
      obtain ⟨c, hc, hcne⟩ := hany
      have hgne : renderGroup g ≠ "" := renderGroup_ne_empty hc hcne
      have hsne : renderSet (g :: sortRangeSet nr.set) ≠ "" :=
        renderSet_ne_empty (List.mem_cons_self _ _) hgne
      rw [hresq]
      unfold setToRange
      rw [if_neg hsne]
      simp [hs]

def w5r1 : Range := setToRange [[cGe (v3 1 0 0), cLt (v3 1 5 0)]]

def w5r2 : Range := setToRange [[cGe (v3 1 0 0), cLt (v3 1 4 0)], [cGe (v3 5 0 0)]]

def w5res : Range := setToRange [[cGe (v3 1 0 0), cLt (v3 1 5 0)], [cGe (v3 5 0 0)]]

/-- Witness for C5 at `r1 = >=1.0.0 <1.5.0`,
`r2 = >=1.0.0 <1.4.0 || >=5.0.0` (equal minimums `1.0.0`, no subset
either way): the result's first group is `r1`'s head. -/
theorem c5_head_tiebreak_witness :
    w5res.set.head? = (sortRangeSet w5r1.set).head? :=
  c5_head_tiebreak 1 w5r1 w5r2 [] [""] w5res (v3 1 0 0)
    (by decide) (by decide) (by decide) (by decide) (by decide) rfl

def w2r1 : Range := setToRange [[cGe (v3 1 0 0), cLt (v3 1 5 0)],
  [cGe (v3 2 0 0), cLt (v3 2 1 0)], [cGe (v3 3 5 0), cLt (v3 3 6 0)]]

def w2r2 : Range := setToRange [[cGe (v3 1 0 0), cLt (v3 1 5 0)],
  [cGe (v3 3 0 0), cLt (v3 3 1 0)]]

/-- C2 counterexample.  The reducer raises the
unimplemented-configuration error on a pair whose minimum versions are
equal and whose sorted group lists are both nonempty: the raise comes
from a nested recursive call whose realigned remainders are disjoint,
so neither condition (a) nor condition (b) of the claim holds of the
two input ranges. -/
theorem c2_raises_iff_counterexample :
    minVersionR w2r1 = some (v3 1 0 0) ∧
    minVersionR w2r2 = some (v3 1 0 0) ∧
    sortRangeSet w2r1.set ≠ [] ∧
    sortRangeSet w2r2.set ≠ [] ∧
    restrictiveRange 5 w2r1 w2r2 [] = .error .notImplemented :=
  ⟨by decide, by decide, by decide, by decide, rfl⟩

theorem clipAt_set_ne_nil (r : Range) (m : SemVer) : (clipAt r m).set ≠ [] :=
  setToRange_set_ne_nil _

/-- The reducer never raises through the exhausted-heads branch when
both argument ranges have nonempty comparator-set lists (as every
parsed range does): the rebuilt recursive arguments always have
nonempty sets. -/
theorem restrictiveRange_no_noHead :
    ∀ (fuel : Nat) (r1 r2 : Range) (ign : List String),
    r1.set ≠ [] → r2.set ≠ [] →
    restrictiveRange fuel r1 r2 ign ≠ .error .noHead := by
  intro fuel
  induction fuel with
  | zero => intro r1 r2 ign h1 h2; simp [restrictiveRange]
  | succ n ih =>
    intro r1 r2 ign h1 h2
    unfold restrictiveRange
    split
    · simp
    · split
      · simp
      · split
        · simp
        · simp
        · split
          · split
            · rename_i hnone
              exfalso
              cases hs : sortRangeSet r1.set with
              | nil => exact sortRangeSet_ne_nil h1 hs
              | cons g gs =>
                rw [hs] at hnone
                simp [Option.orElse] at hnone
            · split
              · rename_i e hrec
                intro hcon
                injection hcon with he
                subst he
                exact ih _ _ _ (setToRange_set_ne_nil _) (setToRange_set_ne_nil _) hrec
              · simp
          · split
            · split
              · exact ih _ _ _ (setToRange_set_ne_nil _) (setToRange_set_ne_nil _)
              · simp
            · split
              · exact ih _ _ _ (setToRange_set_ne_nil _) (setToRange_set_ne_nil _)
              · simp

/-- C2 amended.  The reducer's raises are characterized by: (i) the
exhausted-heads branch is unreachable for ranges with nonempty
comparator-set lists, so the only unimplemented-configuration raises
come from the disjoint-after-alignment branch (possibly of a nested
recursive call); and (ii) whenever the two minimum versions differ and
the floor-aligned ranges do not intersect, the call raises the
unimplemented-configuration error. -/
theorem c2_raises_characterization (fuel : Nat) (r1 r2 : Range)
    (ign : List String) (m1 m2 : SemVer) :
    (r1.set ≠ [] → r2.set ≠ [] →
      restrictiveRange fuel r1 r2 ign ≠ .error .noHead) ∧
    (subsetR r1 r2 = false → subsetR r2 r1 = false →
      minVersionR r1 = some m1 → minVersionR r2 = some m2 →
      cmpV m1 m2 ≠ .eq →
      intersectsR (clipAt r1 (if cmpV m1 m2 = .lt then m2 else m1))
        (clipAt r2 (if cmpV m1 m2 = .lt then m2 else m1)) = false →
      restrictiveRange (fuel + 1) r1 r2 ign = .error .notImplemented) := by
  constructor
  · exact restrictiveRange_no_noHead fuel r1 r2 ign
  · intro h1 h2 hm1 hm2 hne hint
    simp [restrictiveRange, h1, h2, hm1, hm2, hne, hint]

def w2d1 : Range := setToRange [[cGe (v3 2 0 0), cLt (v3 2 1 0)],
  [cGe (v3 3 5 0), cLt (v3 3 6 0)]]

def w2d2 : Range := setToRange [[cGe (v3 3 0 0), cLt (v3 3 1 0)]]

/-- Witness for the amended C2: the no-raise part at the
counterexample pair, and the raise part at the disjoint-after-alignment
pair `>=2.0.0 <2.1.0 || >=3.5.0 <3.6.0` versus `>=3.0.0 <3.1.0`. -/
theorem c2_raises_characterization_witness :
    restrictiveRange 5 w2r1 w2r2 [] ≠ .error .noHead ∧
    restrictiveRange 1 w2d1 w2d2 [] = .error .notImplemented :=
  ⟨(c2_raises_characterization 5 w2r1 w2r2 [] (v3 1 0 0) (v3 1 0 0)).1
      (by decide) (by decide),
   (c2_raises_characterization 0 w2d1 w2d2 [] (v3 2 0 0) (v3 3 0 0)).2
      (by decide) (by decide) (by decide) (by decide) (by decide) (by decide)⟩

def c3seqA : List (String × DepConstraint) :=
  [("a", .valid [[cGe (v3 1 0 0), cLt (v3 1 2 0)]])]

def c3seqB : List (String × DepConstraint) :=
  c3seqA ++ [("b", .valid [[cGe (v3 2 0 0), cLt (v3 2 1 0)]])]

def c3resA : Range := rangeOfValid [[cGe (v3 1 0 0), cLt (v3 1 2 0)]]

def c3resB : Range := rangeOfValid [[cGe (v3 2 0 0), cLt (v3 2 1 0)]]

/-- C3 counterexample.  Appending the well-formed constraint
`>=2.0.0 <2.1.0` to the aggregation of `[>=1.0.0 <1.2.0]` replaces the
accumulator by the appended, disjoint range (its groups survive the
floor alignment while the accumulator's are all dropped, leaving the
universal range, of which the appended range is a subset): the new
result contains version `2.0.0`, which the old result excludes, so
the new result is not a semantic subset of the old one — adding a
dependency widened the result at `2.0.0`. -/
theorem c3_monotonicity_counterexample :
    computeEnginesConstraint 5 c3seqA =
      .ok { mrr := some c3resA, ignoredRanges := ["*"], adopted := false } ∧
    computeEnginesConstraint 5 c3seqB =
      .ok { mrr := some c3resB, ignoredRanges := ["*", ""], adopted := false } ∧
    satRange c3resB (v3 2 0 0) = true ∧
    satRange c3resA (v3 2 0 0) = false ∧
    ¬(∀ v, satRange c3resB v = true → satRange c3resA v = true) :=
  ⟨rfl, rfl, by decide, by decide,
   fun h => absurd (h (v3 2 0 0) (by decide)) (by decide)⟩

theorem runAgg_append (fuel : Nat) (st : AggState)
    (l : List (String × DepConstraint)) (e : String × DepConstraint) :
    runAgg fuel st (l ++ [e]) =
      match runAgg fuel st l with
      | .error er => .error er
      | .ok st2 => aggStep fuel st2 e := by
  induction l generalizing st with
  | nil =>
    simp only [List.nil_append, runAgg]
    cases aggStep fuel st e <;> rfl
  | cons x xs ih =>
    simp only [List.cons_append, runAgg]
    cases aggStep fuel st x with
    | error er => rfl
    | ok st2 => exact ih st2

/-- C3 amended.  Appending one more well-formed constraint never
widens the result when that constraint is subset-comparable (in either
direction, per the subset primitive) with the accumulated range: the
new accumulator is a subset of the old one.  (In general the claim
fails: a constraint disjoint from the accumulator after floor
alignment replaces it, as the counterexample shows.) -/
theorem c3_monotonicity_amended (fuel : Nat)
    (entries : List (String × DepConstraint)) (name : String)
    (set : List CompGroup) (st : AggState) (m : Range)
    (hrun : runAgg (fuel + 1) aggInitState entries = .ok st)
    (hmrr : st.mrr = some m)
    (hcomp : subsetR (rangeOfValid set) m = true ∨
      subsetR m (rangeOfValid set) = true) :
    ∃ st2, runAgg (fuel + 1) aggInitState (entries ++ [(name, .valid set)]) =
        .ok st2 ∧
      ∃ m2, st2.mrr = some m2 ∧ subsetR m2 m = true := by
  rw [runAgg_append, hrun]
  simp only [aggStep]
  by_cases hc : st.ignoredRanges.contains (rawValid set)
  · simp only [hc, if_pos]
    exact ⟨st, rfl, m, hmrr, subsetR_refl m⟩
  · simp only [hc, Bool.false_eq_true, if_false, hmrr]
    by_cases hb : subsetR m (rangeOfValid set) = true
    · have hrr : restrictiveRange (fuel + 1) m (rangeOfValid set) st.ignoredRanges
          = .ok (m, st.ignoredRanges ++ [(rangeOfValid set).raw]) := by
        simp [restrictiveRange, hb]
      rw [hrr]
      refine ⟨_, rfl, ?_⟩
      simp only [if_pos rfl]
      exact ⟨m, rfl, subsetR_refl m⟩
    · have hb2 : subsetR (rangeOfValid set) m = true := by
        rcases hcomp with h | h
        · exact h
        · exact absurd h hb
      have hbf : subsetR m (rangeOfValid set) = false := by
        cases hx : subsetR m (rangeOfValid set)
        · rfl
        · exact absurd hx hb
      have hrr : restrictiveRange (fuel + 1) m (rangeOfValid set) st.ignoredRanges
          = .ok (rangeOfValid set, st.ignoredRanges ++ [m.raw]) := by
        simp [restrictiveRange, hbf, hb2]
      rw [hrr]
      refine ⟨_, rfl, ?_⟩
      by_cases hraw : m.raw = (rangeOfValid set).raw
      · simp only [hraw, if_pos rfl]
        exact ⟨m, rfl, subsetR_refl m⟩
      · simp only [hraw, if_neg, ite_false]
        exact ⟨rangeOfValid set, rfl, hb2⟩

/-- Witness for the amended C3: appending `>=1.1.0 <1.2.0` (a subset
of the accumulated `>=1.0.0 <1.2.0`) never widens the result. -/
theorem c3_monotonicity_amended_witness :
    ∃ st2, runAgg 5 aggInitState
        (c3seqA ++ [("c", .valid [[cGe (v3 1 1 0), cLt (v3 1 2 0)]])]) =
        .ok st2 ∧
      ∃ m2, st2.mrr = some m2 ∧ subsetR m2 c3resA = true :=
  c3_monotonicity_amended 4 c3seqA "c" [[cGe (v3 1 1 0), cLt (v3 1 2 0)]]
    { mrr := some c3resA, ignoredRanges := ["*"], adopted := false } c3resA
    rfl rfl (Or.inl (by decide))

/-- C4 counterexample.  Clipping the single-group set `>=1.0.0` at the
floor `2.5.0` drops its only group (its lower bound's major, 1, is
below the floor's major, 2), producing the empty group list, whose
union contains no version at all — while the original union clipped at
`2.5.0` still contains `3.0.0`.  The exact-clipping claim fails for a
group whose lower bound's major is below the floor's major but whose
interval extends above the floor. -/
theorem c4_clipping_counterexample :
    applyMinVersionToRangeSet [[cGe (v3 1 0 0)]] (v3 2 5 0) = [] ∧
    satSet [] (v3 3 0 0) = false ∧
    (satSet [[cGe (v3 1 0 0)]] (v3 3 0 0) && geV (v3 3 0 0) (v3 2 5 0)) = true :=
  ⟨rfl, rfl, by decide⟩

theorem geV_of_rev_lt {a b : SemVer} (h : cmpV b a = .lt) : geV a b = true := by
  simp only [geV, decide_eq_true_eq]
  rw [← cmpV_gt_iff_lt] at h
  rw [h]
  intro hc
  cases hc

theorem geV_false_cmp {a b : SemVer} (h : geV a b = false) : cmpV a b = .lt := by
  simp only [geV] at h
  rcases hc : cmpV a b with _ | _ | _
  · rfl
  · rw [hc] at h; simp at h
  · rw [hc] at h; simp at h

theorem geV_false_of_ltV {a b : SemVer} (h : ltV a b = true) : geV a b = false := by
  simp only [ltV, decide_eq_true_eq] at h
  simp [geV, h]

/-- If the floor does not reach a kept group's lower bound, that lower
bound is at least the floor. -/
theorem ge_floor {lo minV : SemVer} (hmaj : minV.major ≤ lo.major)
    (hcond : ¬(lo.major = minV.major ∧ geV minV lo = true)) :
    geV lo minV = true := by
  by_cases he : lo.major = minV.major
  · have hg : ¬(geV minV lo = true) := fun hx => hcond ⟨he, hx⟩
    have : geV minV lo = false := by
      cases hx : geV minV lo
      · rfl
      · exact absurd hx hg
    exact geV_of_rev_lt (geV_false_cmp this)
  · have : minV.major < lo.major := lt_of_le_of_ne hmaj (fun hx => he hx.symm)
    exact geV_of_rev_lt (cmpV_lt_of_major_lt this)

/-- The comparator-group shapes this system constructs: a single
lower-bound comparator, or a caret-style half-open pair. -/
def caretShape (g : CompGroup) : Prop :=
  (∃ lo, g = [Comparator.cmp .oGe lo]) ∨
  (∃ lo hi, g = [Comparator.cmp .oGe lo, Comparator.cmp .oLt hi])

/-- A group whose lower-bound major is below the floor's major must lie
entirely below the floor (an unbounded group must not start below the
floor's major at all). -/
def belowOk (minV : SemVer) (g : CompGroup) : Prop :=
  match g with
  | [Comparator.cmp .oGe lo] => minV.major ≤ lo.major
  | [Comparator.cmp .oGe lo, Comparator.cmp .oLt hi] =>
    lo.major < minV.major → leV hi minV = true
  | _ => True

/-- Per-group exactness of the clipping step under the shape and
entirely-below conditions. -/
theorem clip_group_exact (minV v : SemVer) (g : CompGroup)
    (hshape : caretShape g) (hbelow : belowOk minV g) :
    (if keepGroupAtMin minV g then satGroup (raiseGroupToMin minV g) v else false)
      = (satGroup g v && geV v minV) := by
  rcases hshape with ⟨lo, rfl⟩ | ⟨lo, hi, rfl⟩
  · have hmaj : minV.major ≤ lo.major := hbelow
    have hkeep : keepGroupAtMin minV [Comparator.cmp .oGe lo] = true := by
      simp [keepGroupAtMin, hmaj]
    rw [if_pos hkeep]
    have hraise : raiseGroupToMin minV [Comparator.cmp .oGe lo]
        = if lo.major = minV.major ∧ geV minV lo = true
          then [Comparator.cmp .oGe minV] else [Comparator.cmp .oGe lo] := rfl
    rw [hraise]
    by_cases hcond : lo.major = minV.major ∧ geV minV lo = true
    · rw [if_pos hcond]
      simp only [satGroup, List.all_cons, List.all_nil, satC, Bool.and_true]
      cases hv : geV v minV
      · simp
      · simp [geV_trans hv hcond.2]
    · rw [if_neg hcond]
      simp only [satGroup, List.all_cons, List.all_nil, satC, Bool.and_true]
      cases hv : geV v lo
      · simp
      · simp [geV_trans hv (ge_floor hmaj hcond)]
  · by_cases hmaj : minV.major ≤ lo.major
    · have hkeep : keepGroupAtMin minV [Comparator.cmp .oGe lo, Comparator.cmp .oLt hi]
          = true := by
        simp [keepGroupAtMin, hmaj]
      rw [if_pos hkeep]
      have hraise : raiseGroupToMin minV [Comparator.cmp .oGe lo, Comparator.cmp .oLt hi]
          = if lo.major = minV.major ∧ geV minV lo = true
            then [Comparator.cmp .oGe minV, Comparator.cmp .oLt hi]
            else [Comparator.cmp .oGe lo, Comparator.cmp .oLt hi] := rfl
      rw [hraise]
      by_cases hcond : lo.major = minV.major ∧ geV minV lo = true
      · rw [if_pos hcond]
        simp only [satGroup, List.all_cons, List.all_nil, satC, Bool.and_true]
        cases hv : geV v minV
        · simp
        · cases hh : ltV v hi
          · simp
          · simp [geV_trans hv hcond.2]
      · rw [if_neg hcond]
        simp only [satGroup, List.all_cons, List.all_nil, satC, Bool.and_true]
        cases hv : geV v lo
        · simp
        · cases hh : ltV v hi
          · simp
          · simp [geV_trans hv (ge_floor hmaj hcond)]
    · have hkeep : keepGroupAtMin minV [Comparator.cmp .oGe lo, Comparator.cmp .oLt hi]
          = false := by
        simp only [keepGroupAtMin]
        simp [hmaj]
      rw [hkeep]
      simp only [Bool.false_eq_true, if_false]
      have hlm : lo.major < minV.major := Nat.lt_of_not_le hmaj
      have hle : leV hi minV = true := hbelow hlm
      simp only [satGroup, List.all_cons, List.all_nil, satC, Bool.and_true]
      cases hv : geV v lo
      · simp
      · cases hh : ltV v hi
        · simp
        · have : geV v minV = false := geV_false_of_ltV (ltV_le_trans hh hle)
          simp [this]

/-- C4 amended.  For caret-shaped group lists in which every group whose
lower-bound major is below the floor's major lies entirely below the
floor, the clipped set's union is exactly the original union
intersected with the versions at or above the floor. -/
theorem c4_clipping_amended (set : List CompGroup) (minV v : SemVer)
    (hshape : ∀ g ∈ set, caretShape g) (hbelow : ∀ g ∈ set, belowOk minV g) :
    satSet (applyMinVersionToRangeSet set minV) v
      = (satSet set v && geV v minV) := by
  induction set with
  | nil => simp [applyMinVersionToRangeSet, satSet]
  | cons g gs ih =>
    have hg := clip_group_exact minV v g (hshape g (List.mem_cons_self _ _))
      (hbelow g (List.mem_cons_self _ _))
    have ihs := ih (fun x hx => hshape x (List.mem_cons_of_mem _ hx))
      (fun x hx => hbelow x (List.mem_cons_of_mem _ hx))
    simp only [applyMinVersionToRangeSet] at ihs ⊢
    rw [List.filter_cons]
    by_cases hk : keepGroupAtMin minV g = true
    · rw [if_pos hk]
      rw [if_pos hk] at hg
      rw [List.map_cons]
      show (satGroup (raiseGroupToMin minV g) v
          || satSet (((gs.filter (keepGroupAtMin minV)).map (raiseGroupToMin minV))) v)
        = (satSet (g :: gs) v && geV v minV)
      rw [hg, ihs]
      show _ = ((satGroup g v || satSet gs v) && geV v minV)
      cases satGroup g v <;> cases satSet gs v <;> cases geV v minV <;> simp
    · have hkf : keepGroupAtMin minV g = false := by
        cases hx : keepGroupAtMin minV g
        · rfl
        · exact absurd hx hk
      rw [hkf] at hg
      rw [hkf]
      simp only [Bool.false_eq_true, if_false]
      rw [ihs]
      have hgf : (satGroup g v && geV v minV) = false := hg.symm
      show (satSet gs v && geV v minV) = ((satGroup g v || satSet gs v) && geV v minV)
      cases hsg : satGroup g v
      · simp
      · rw [hsg] at hgf
        simp only [Bool.true_and] at hgf
        rw [hgf]
        simp

def w4set : List CompGroup := [caretG 14 13 0, caretG 16 10 0]

/-- Witness for the amended C4 at the caret set
`^14.13.0 || ^16.10.0`, floor `14.17.0`, version `16.11.0`. -/
theorem c4_clipping_amended_witness :
    satSet (applyMinVersionToRangeSet w4set (v3 14 17 0)) (v3 16 11 0)
      = (satSet w4set (v3 16 11 0) && geV (v3 16 11 0) (v3 14 17 0)) :=
  c4_clipping_amended w4set (v3 14 17 0) (v3 16 11 0)
    (by intro g hg
        simp only [w4set, List.mem_cons, List.mem_singleton] at hg
        rcases hg with rfl | rfl | hfalse
        · exact Or.inr ⟨_, _, rfl⟩
        · exact Or.inr ⟨_, _, rfl⟩
        · cases hfalse)
    (by intro g hg
        simp only [w4set, List.mem_cons, List.mem_singleton] at hg
        rcases hg with rfl | rfl | hfalse
        · intro h; cases (by decide : ¬((14 : Nat) < 14)) h
        · intro h; cases (by decide : ¬((16 : Nat) < 14)) h
        · cases hfalse)

def c6r1 : Range := setToRange [[cLt (v3 2 0 0)]]

def c6r2 : Range := setToRange [[cGe (v3 1 5 0), cLt (v3 3 0 0)]]

/-- C6.  The reducer does not terminate on the well-formed pair
`<2.0.0` and `>=1.5.0 <3.0.0`: the minimum versions differ (`0.0.0`
versus `1.5.0`), the floor-aligned ranges are unchanged (the `<2.0.0`
group's lower-bound major, 2, is not below the floor's major, and the
floor does not reach version `2.0.0`, while `>=1.5.0 <3.0.0` realigns
to itself), and they intersect — so the recursion re-enters with the
identical arguments forever.  In the fuel embedding the call exhausts
any amount of fuel. -/
theorem c6_nontermination (fuel : Nat) :
    restrictiveRange fuel c6r1 c6r2 [] = .error .outOfFuel := by
  induction fuel with
  | zero => rfl
  | succ n ih =>
    have hstep : restrictiveRange (n + 1) c6r1 c6r2 []
        = restrictiveRange n c6r1 c6r2 [] := rfl
    rw [hstep, ih]

/-- The reducer only appends to the ignored-ranges list, never
removing entries. -/
theorem restrictiveRange_ign_mono :
    ∀ (fuel : Nat) (r1 r2 : Range) (ign : List String) (nr : Range)
      (ign2 : List String),
    restrictiveRange fuel r1 r2 ign = .ok (nr, ign2) → ∀ x ∈ ign, x ∈ ign2 := by
  intro fuel
  induction fuel with
  | zero => intro r1 r2 ign nr ign2 h; cases h
  | succ n ih =>
    intro r1 r2 ign nr ign2 h x hx
    unfold restrictiveRange at h
    split at h
    · simp only [Except.ok.injEq, Prod.mk.injEq] at h
      rw [← h.2]
      exact List.mem_append_left _ hx
    · split at h
      · simp only [Except.ok.injEq, Prod.mk.injEq] at h
        rw [← h.2]
        exact List.mem_append_left _ hx
      · split at h
        · cases h
        · cases h
        · split at h
          · split at h
            · cases h
            · cases hrec2 : restrictiveRange n (setToRange (sortRangeSet r1.set).tail)
                  (setToRange (sortRangeSet r2.set).tail) ign with
              | error e => rw [hrec2] at h; cases h
              | ok p =>
                rw [hrec2] at h
                obtain ⟨nr0, ign0⟩ := p
                simp only [Except.ok.injEq, Prod.mk.injEq] at h
                rw [← h.2]
                exact ih _ _ _ _ _ hrec2 x hx
          · split at h
            · split at h
              · exact ih _ _ _ _ _ h x hx
              · cases h
            · split at h
              · exact ih _ _ _ _ _ h x hx
              · cases h

theorem lbGE_unb (a : LBound) : lbGE a .unb = true := by
  cases a <;> rfl

theorem ubLE_unb (a : UBound) : ubLE a .unb = true := by
  cases a <;> rfl

/-- Every range is a subset of the universal range. -/
theorem subsetR_univ_right (r : Range) : subsetR r universalRange = true := by
  simp only [subsetR, List.all_eq_true]
  intro g hg
  refine List.any_eq_true.mpr ⟨[Comparator.anyC], by simp [universalRange], ?_⟩
  simp [groupSubset, groupLB, groupUB, List.foldl, compLB, compUB, maxLB_unb,
    minUB_unb, lbGE_unb, ubLE_unb]

theorem maxLB_eq_unb {a b : LBound} (h : maxLB a b = .unb) :
    a = .unb ∧ b = .unb := by
  cases a with
  | unb =>
    cases b with
    | unb => exact ⟨rfl, rfl⟩
    | bnd s v => cases h
  | bnd s v =>
    cases b with
    | unb => cases h
    | bnd s2 v2 =>
      simp only [maxLB] at h
      rcases hc : cmpV v v2 with _ | _ | _ <;> rw [hc] at h <;> cases h

theorem minUB_eq_unb {a b : UBound} (h : minUB a b = .unb) :
    a = .unb ∧ b = .unb := by
  cases a with
  | unb =>
    cases b with
    | unb => exact ⟨rfl, rfl⟩
    | bnd s v => cases h
  | bnd s v =>
    cases b with
    | unb => cases h
    | bnd s2 v2 =>
      simp only [minUB] at h
      rcases hc : cmpV v v2 with _ | _ | _ <;> rw [hc] at h <;> cases h

theorem groupLB_unb_all {g : CompGroup} (h : groupLB g = .unb) :
    ∀ c ∈ g, compLB c = .unb := by
  have key : ∀ (l : List Comparator) (acc : LBound),
      l.foldl (fun acc c => maxLB acc (compLB c)) acc = .unb →
      acc = .unb ∧ ∀ c ∈ l, compLB c = .unb := by
    intro l
    induction l with
    | nil => intro acc h; exact ⟨h, by simp⟩
    | cons c cs ih =>
      intro acc h
      simp only [List.foldl_cons] at h
      obtain ⟨h1, h2⟩ := ih _ h
      obtain ⟨ha, hc⟩ := maxLB_eq_unb h1
      exact ⟨ha, by
        intro d hd
        rcases List.mem_cons.mp hd with rfl | hd
        · exact hc
        · exact h2 d hd⟩
  exact (key g .unb h).2

theorem groupUB_unb_all {g : CompGroup} (h : groupUB g = .unb) :
    ∀ c ∈ g, compUB c = .unb := by
  have key : ∀ (l : List Comparator) (acc : UBound),
      l.foldl (fun acc c => minUB acc (compUB c)) acc = .unb →
      acc = .unb ∧ ∀ c ∈ l, compUB c = .unb := by
    intro l
    induction l with
    | nil => intro acc h; exact ⟨h, by simp⟩
    | cons c cs ih =>
      intro acc h
      simp only [List.foldl_cons] at h
      obtain ⟨h1, h2⟩ := ih _ h
      obtain ⟨ha, hc⟩ := minUB_eq_unb h1
      exact ⟨ha, by
        intro d hd
        rcases List.mem_cons.mp hd with rfl | hd
        · exact hc
        · exact h2 d hd⟩
  exact (key g .unb h).2

/-- A non-wildcard comparator bounds at least one side. -/
theorem nonany_bounds {c : Comparator} (h : c ≠ .anyC) :
    ¬(compLB c = .unb ∧ compUB c = .unb) := by
  cases c with
  | anyC => exact absurd rfl h
  | cmp op v =>
    cases op <;> simp [compLB, compUB]

/-- The universal range is not a subset of a range all of whose groups
contain a bounding comparator. -/
theorem subsetR_univ_left_false {r : Range}
    (h : ∀ g ∈ r.set, ∃ c ∈ g, c ≠ Comparator.anyC) :
    subsetR universalRange r = false := by
  have hany : r.set.any (fun h2 => groupSubset [Comparator.anyC] h2) = false := by
    rw [List.any_eq_false]
    intro g hg
    obtain ⟨c, hc, hcne⟩ := h g hg
    simp only [groupSubset, Bool.or_eq_true, Bool.and_eq_true]
    intro hcon
    rcases hcon with hemp | ⟨hlb, hub⟩
    · rw [show groupEmpty [Comparator.anyC] = false from rfl] at hemp
      cases hemp
    · have hlbu : groupLB [Comparator.anyC] = .unb := rfl
      have hubu : groupUB [Comparator.anyC] = .unb := rfl
      rw [hlbu] at hlb
      rw [hubu] at hub
      have hglb : groupLB g = .unb := by
        cases hx : groupLB g
        · rfl
        · rw [hx] at hlb; cases hlb
      have hgub : groupUB g = .unb := by
        cases hx : groupUB g
        · rfl
        · rw [hx] at hub; cases hub
      exact nonany_bounds hcne ⟨groupLB_unb_all hglb c hc, groupUB_unb_all hgub c hc⟩
  simp only [subsetR, universalRange, List.all_cons, List.all_nil, Bool.and_true]
  exact hany

def c10entryA : String × DepConstraint :=
  ("a", .valid [[Comparator.anyC], [cGe (v3 1 0 0)]])

def c10entryB : String × DepConstraint := ("b", .valid [[Comparator.anyC]])

/-- C10 counterexample.  A first valid constraint whose parsed set is
`* || >=1.0.0` is absorbed through the first subset branch (the
universal accumulator is a subset of it), so the text pushed into
`ignoredRanges` is `||>=1.0.0`, not `*`, and the constraint does not
become the accumulator; a later dependency whose validated text is
exactly `*` then fails the ignored-ranges check and is processed (the
ignored list grows by `*`), refuting the claim that every later `*`
dependency is skipped via that check. -/
theorem c10_counterexample :
    runAgg 5 aggInitState [c10entryA] =
      .ok { mrr := some universalRange, ignoredRanges := ["||>=1.0.0"],
            adopted := false } ∧
    rawValid [[Comparator.anyC]] = "*" ∧
    (["||>=1.0.0"] : List String).contains "*" = false ∧
    aggStep 5 ({ mrr := some universalRange,
                 ignoredRanges := ["||>=1.0.0"],
                 adopted := false } : AggState) c10entryB =
      .ok { mrr := some universalRange, ignoredRanges := ["||>=1.0.0", "*"],
            adopted := false } :=
  ⟨rfl, rfl, by decide, rfl⟩

/-- A constraint as the aggregation can safely see it: either the pure
wildcard (whose rendered set text is empty, validated as `*`) or a
range each of whose groups has a bounding comparator.  Every ordinary
engines constraint (`>=x.y.z`, carets, unions of those) is clean; the
counterexample's `* || >=1.0.0` is not. -/
def cleanDep : DepConstraint → Prop
  | .valid set => renderSet set = "" ∨ ∀ g ∈ set, ∃ c ∈ g, c ≠ Comparator.anyC
  | _ => True

/-- The aggregation-run invariant: the adopt-directly branch has never
fired, the accumulator is defined, and either `*` has already been
pushed into the ignored list or the run has not yet processed a usable
constraint (the accumulator is still the universal range and the
ignored list empty). -/
def aggInv (st : AggState) : Prop :=
  st.adopted = false ∧ (∃ m, st.mrr = some m) ∧
  (st.ignoredRanges.contains "*" = true ∨
    (st.mrr = some universalRange ∧ st.ignoredRanges = []))

/-- Whether some entry carries a valid constraint. -/
def hasValidEntry (entries : List (String × DepConstraint)) : Prop :=
  ∃ e ∈ entries, ∃ s, e.2 = .valid s

theorem aggStep_preserves (fuel : Nat) (st st2 : AggState) (name : String)
    (d : DepConstraint) (hclean : cleanDep d) (hinv : aggInv st)
    (hstep : aggStep (fuel + 1) st (name, d) = .ok st2) :
    aggInv st2 ∧ (∀ s, d = .valid s → st2.ignoredRanges.contains "*" = true) ∧
    (st.ignoredRanges.contains "*" = true →
      st2.ignoredRanges.contains "*" = true) := by
  obtain ⟨hado, ⟨m, hm⟩, hdisj⟩ := hinv
  cases d with
  | missing =>
    simp only [aggStep] at hstep
    simp only [Except.ok.injEq] at hstep
    subst hstep
    refine ⟨⟨hado, ⟨m, hm⟩, hdisj⟩, ?_, fun h => h⟩
    intro s hs
    exact DepConstraint.noConfusion hs
  | invalid =>
    simp only [aggStep] at hstep
    simp only [Except.ok.injEq] at hstep
    subst hstep
    refine ⟨⟨hado, ⟨m, hm⟩, hdisj⟩, ?_, fun h => h⟩
    intro s hs
    exact DepConstraint.noConfusion hs
  | valid s =>
    simp only [aggStep] at hstep
    by_cases hc : st.ignoredRanges.contains (rawValid s) = true
    · rw [if_pos hc] at hstep
      simp only [Except.ok.injEq] at hstep
      subst hstep
      have hcont : st.ignoredRanges.contains "*" = true := by
        rcases hdisj with h | ⟨_, hig⟩
        · exact h
        · rw [hig] at hc; cases hc
      exact ⟨⟨hado, ⟨m, hm⟩, Or.inl hcont⟩, fun _ _ => hcont, fun h => h⟩
    · rw [if_neg hc] at hstep
      rw [hm] at hstep
      simp only [] at hstep
      rcases hdisj with hcont | ⟨hmu, hig⟩
      · -- `*` is already ignored: whatever the reducer returns only
        -- extends the list
        cases hrr : restrictiveRange (fuel + 1) m (rangeOfValid s)
            st.ignoredRanges with
        | error e => rw [hrr] at hstep; cases hstep
        | ok p =>
          rw [hrr] at hstep
          obtain ⟨nr, ign2⟩ := p
          simp only [Except.ok.injEq] at hstep
          subst hstep
          have hmem : "*" ∈ ign2 :=
            restrictiveRange_ign_mono _ _ _ _ _ _ hrr "*" (List.elem_iff.mp hcont)
          have hcont2 : ign2.contains "*" = true := List.elem_iff.mpr hmem
          exact ⟨⟨hado, ⟨_, rfl⟩, Or.inl hcont2⟩, fun _ _ => hcont2, fun _ => hcont2⟩
      · -- first usable constraint: the universal accumulator short-circuits
        have hme : m = universalRange := by
          rw [hmu] at hm
          injection hm with h2
          exact h2.symm
        subst hme
        rw [hig] at hstep ⊢
        by_cases hrs : renderSet s = ""
        · have hrv : rangeOfValid s = universalRange := by
            unfold rangeOfValid
            rw [if_pos hrs]
            rfl
          rw [hrv] at hstep
          have hrr : restrictiveRange (fuel + 1) universalRange universalRange []
              = .ok (universalRange, [universalRange.raw]) := by
            simp [restrictiveRange, subsetR_refl]
          rw [hrr] at hstep
          simp only [Except.ok.injEq] at hstep
          subst hstep
          have hcont2 : (([universalRange.raw] : List String)).contains "*" = true := rfl
          exact ⟨⟨hado, ⟨_, rfl⟩, Or.inl hcont2⟩, fun _ _ => hcont2, fun _ => hcont2⟩
        · have hwf : ∀ g ∈ s, ∃ c ∈ g, c ≠ Comparator.anyC := by
            rcases hclean with h | h
            · exact absurd h hrs
            · exact h
          have hrvset : (rangeOfValid s).set = s := by
            unfold rangeOfValid
            rw [if_neg hrs]
          have hsub1 : subsetR universalRange (rangeOfValid s) = false := by
            apply subsetR_univ_left_false
            rw [hrvset]
            exact hwf
          have hsub2 : subsetR (rangeOfValid s) universalRange = true :=
            subsetR_univ_right _
          have hrr : restrictiveRange (fuel + 1) universalRange (rangeOfValid s) []
              = .ok (rangeOfValid s, [universalRange.raw]) := by
            simp [restrictiveRange, hsub1, hsub2]
          rw [hrr] at hstep
          simp only [Except.ok.injEq] at hstep
          subst hstep
          have hcont2 : (([universalRange.raw] : List String)).contains "*" = true := rfl
          exact ⟨⟨hado, ⟨_, rfl⟩, Or.inl hcont2⟩, fun _ _ => hcont2, fun _ => hcont2⟩

theorem runAgg_inv (fuel : Nat) :
    ∀ (entries : List (String × DepConstraint)) (st0 st : AggState),
    (∀ e ∈ entries, cleanDep e.2) → aggInv st0 →
    runAgg (fuel + 1) st0 entries = .ok st →
    aggInv st ∧
      ((hasValidEntry entries ∨ st0.ignoredRanges.contains "*" = true) →
        st.ignoredRanges.contains "*" = true) := by
  intro entries
  induction entries with
  | nil =>
    intro st0 st hclean hinv hrun
    simp only [runAgg, Except.ok.injEq] at hrun
    subst hrun
    refine ⟨hinv, ?_⟩
    rintro (⟨e, he, _⟩ | hc)
    · cases he
    · exact hc
  | cons e es ih =>
    intro st0 st hclean hinv hrun
    obtain ⟨name, d⟩ := e
    simp only [runAgg] at hrun
    cases hstep : aggStep (fuel + 1) st0 (name, d) with
    | error er => rw [hstep] at hrun; cases hrun
    | ok st1 =>
      rw [hstep] at hrun
      obtain ⟨hinv1, hvalid1, hmono1⟩ := aggStep_preserves fuel st0 st1 name d
        (hclean _ (List.mem_cons_self _ _)) hinv hstep
      obtain ⟨hinvf, hcontf⟩ := ih st1 st
        (fun x hx => hclean x (List.mem_cons_of_mem _ hx)) hinv1 hrun
      refine ⟨hinvf, ?_⟩
      rintro (⟨e2, he2, s2, hs2⟩ | hc)
      · rcases List.mem_cons.mp he2 with rfl | he2
        · exact hcontf (Or.inr (hvalid1 s2 hs2))
        · exact hcontf (Or.inl ⟨e2, he2, s2, hs2⟩)
      · exact hcontf (Or.inr (hmono1 hc))

/-- C10 amended.  For an aggregation run over constraints that are
either the pure wildcard or wildcard-free (every ordinary engines
constraint is), the adopt-into-undefined-accumulator branch never
fires and the accumulator stays defined; as soon as some valid
constraint has been processed the raw text `*` is in the ignored
list (pushed by the subset short-circuit over the universal initial
accumulator); and once `*` is ignored, every later dependency whose
validated text is exactly `*` is skipped, leaving the state
unchanged.  (Without the cleanliness condition the `*`-skipping claim
fails, as the counterexample with a first constraint `* || >=1.0.0`
shows.) -/
theorem c10_aggregator_invariant (fuel : Nat)
    (entries : List (String × DepConstraint)) (st : AggState)
    (hclean : ∀ e ∈ entries, cleanDep e.2)
    (hrun : runAgg (fuel + 1) aggInitState entries = .ok st) :
    st.adopted = false ∧ (∃ m, st.mrr = some m) ∧
    (hasValidEntry entries → st.ignoredRanges.contains "*" = true) ∧
    (∀ name s, rawValid s = "*" → st.ignoredRanges.contains "*" = true →
      aggStep (fuel + 1) st (name, .valid s) = .ok st) := by
  have hinv0 : aggInv aggInitState :=
    ⟨rfl, ⟨universalRange, rfl⟩, Or.inr ⟨rfl, rfl⟩⟩
  obtain ⟨⟨hado, hsome, _⟩, hcont⟩ :=
    runAgg_inv fuel entries aggInitState st hclean hinv0 hrun
  refine ⟨hado, hsome, fun hv => hcont (Or.inl hv), ?_⟩
  intro name s hraw hcontst
  simp only [aggStep]
  rw [hraw, hcontst]
  simp

def c10goodEntries : List (String × DepConstraint) :=
  [("foo", .valid [[cGe (v3 12 22 0)]]), ("bar", .valid [[Comparator.anyC]])]

/-- Witness for the amended C10 on a clean run: `>=12.22.0` followed by
a `*` constraint. -/
theorem c10_aggregator_invariant_witness :
    ∃ st, runAgg 3 aggInitState c10goodEntries = .ok st ∧
      st.adopted = false ∧ (∃ m, st.mrr = some m) ∧
      st.ignoredRanges.contains "*" = true ∧
      (∀ name, aggStep 3 st (name, .valid [[Comparator.anyC]]) = .ok st) := by
  have hclean : ∀ e ∈ c10goodEntries, cleanDep e.2 := by
    intro e he
    simp only [c10goodEntries, List.mem_cons, List.mem_singleton] at he
    rcases he with rfl | rfl | hf
    · exact Or.inr (by
        intro g hg
        simp only [List.mem_singleton] at hg
        subst hg
        exact ⟨cGe (v3 12 22 0), List.mem_singleton.mpr rfl, by simp [cGe]⟩)
    · exact Or.inl rfl
    · cases hf
  cases hrun : runAgg 3 aggInitState c10goodEntries with
  | error er =>
    rw [show runAgg 3 aggInitState c10goodEntries =
        .ok { mrr := some (rangeOfValid [[cGe (v3 12 22 0)]]),
              ignoredRanges := ["*"], adopted := false } from rfl] at hrun
    cases hrun
  | ok st =>
    obtain ⟨hado, hsome, hval, hskip⟩ :=
      c10_aggregator_invariant 2 c10goodEntries st hclean hrun
    have hcont : st.ignoredRanges.contains "*" = true :=
      hval ⟨("foo", .valid [[cGe (v3 12 22 0)]]), List.mem_cons_self _ _,
        [[cGe (v3 12 22 0)]], rfl⟩
    exact ⟨st, rfl, hado, hsome, hcont,
      fun name => hskip name [[Comparator.anyC]] rfl hcont⟩

end Nce
